import Mathlib

/-!
Shallow embedding of the drilling-data generator repository
(src/app.py and src/generate_data.py).

Numeric values are modelled as rationals (the Python code computes with
floats; the spec declares the arithmetic real-valued with no rounding, so
we embed it as exact arithmetic).  Randomness is modelled by passing the
realized draws of `np.random.uniform` explicitly: the first value of each
channel and the stream of per-step perturbations; the distributional
guarantees (first value in `[min, max]`, perturbation in
`[-maxStepDelta, maxStepDelta]`) become hypotheses of the theorems.
The file system seen by `generate_data.py` is modelled as a finite list of
(path, contents) pairs.
-/

namespace DrillingSpec

/-- `np.clip(x, lo, hi)`: equivalent to `min(hi, max(x, lo))`. -/
def clamp (x lo hi : ℚ) : ℚ := min (max x lo) hi

/-- Length of `np.arange(start, stop, step)` for `step ≠ 0`:
`max 0 ⌈(stop - start) / step⌉`. -/
def arangeLen (start stop step : ℚ) : ℕ := (⌈(stop - start) / step⌉).toNat

/-- `np.arange(start, stop, step)`: the values `start + k·step` for
`k = 0, …, len-1`. -/
def arange (start stop step : ℚ) : List ℚ :=
  (List.range (arangeLen start stop step)).map
    (fun k : ℕ => start + (k : ℚ) * step)

/-- The realized outputs of the `np.random.uniform` calls made by
`generate_drilling_data`: one initial value per channel, and one
perturbation stream per channel (the perturbation used at loop index `i`
is `…Pert i`, for `i = 1, …, num_points - 1`). -/
structure Draws where
  rop0 : ℚ
  rpm0 : ℚ
  fr0 : ℚ
  wob0 : ℚ
  ropPert : ℕ → ℚ
  rpmPert : ℕ → ℚ
  frPert : ℕ → ℚ
  wobPert : ℕ → ℚ

/-- Value at index `i` of one channel's bounded random walk:
`v 0 = init`, `v (i+1) = clip (v i + pert (i+1), lo, hi)` — the loop body
`x[i] = np.clip(x[i-1] + np.random.uniform(-d, d), lo, hi)`. -/
def walkVal (lo hi init : ℚ) (pert : ℕ → ℚ) : ℕ → ℚ
  | 0 => init
  | i + 1 => clamp (walkVal lo hi init pert i + pert (i + 1)) lo hi

/-- One full channel series of length `n`. -/
def channelSeries (lo hi init : ℚ) (pert : ℕ → ℚ) (n : ℕ) : List ℚ :=
  (List.range n).map (walkVal lo hi init pert)

/-- A `pandas.DataFrame` built from a dict: an ordered list of
(column name, column values) pairs. -/
structure DataFrame where
  cols : List (String × List ℚ)

/-- Number of depth points produced by `np.arange(sd, ed + st, st)`. -/
def numPoints (sd ed st : ℚ) : ℕ := (arange sd (ed + st) st).length

/-- `generate_drilling_data` from src/app.py (lines 6-50): depth axis by
`np.arange(start_depth, end_depth + step, step)`, four clamped random-walk
channels, assembled into a five-column DataFrame in fixed order. -/
def generate_drilling_data (start_depth end_depth step : ℚ)
    (max_step_rop max_step_rpm max_step_fr max_step_wob : ℚ) (r : Draws) :
    DataFrame :=
  let depths := arange start_depth (end_depth + step) step
  let n := depths.length
  { cols :=
      [("Depth (m)", depths),
       ("ROP (m/h)", channelSeries 2 20 r.rop0 r.ropPert n),
       ("RPM", channelSeries 60 120 r.rpm0 r.rpmPert n),
       ("Flow Rate (L/min)", channelSeries 200 400 r.fr0 r.frPert n),
       ("Weight on Bit (tons)", channelSeries 5 20 r.wob0 r.wobPert n)] }

/-! ### File naming and export (src/generate_data.py, lines 45-56)

The file system is modelled as a finite list of (path, contents) pairs;
`os.path.exists` is membership of the path among the stored names.  The
unbounded `while os.path.exists(...)` loop is modelled with explicit fuel
`length + 1`, which is proved sufficient below (the loop exits through its
free-name branch before the fuel runs out). -/

/-- The candidate path `f"{directory}/{file_pre}_{file_index}.csv"`
(Python's `str` of a nonnegative int is `Nat.repr`). -/
def fileName (directory stem : String) (i : ℕ) : String :=
  directory ++ "/" ++ stem ++ "_" ++ Nat.repr i ++ ".csv"

/-- The collision-search loop: starting at index `i`, increment while the
candidate name exists; `fuel` bounds the number of iterations. -/
def findIndexLoop (fs : List String) (directory stem : String) :
    ℕ → ℕ → ℕ
  | 0, i => i
  | fuel + 1, i =>
    if fileName directory stem i ∈ fs then
      findIndexLoop fs directory stem fuel (i + 1)
    else i

/-- The index chosen by the loop of lines 49-51, starting from 1. -/
def chooseIndex (fs : List String) (directory stem : String) : ℕ :=
  findIndexLoop fs directory stem (fs.length + 1) 1

/-- The names present on the modelled file system. -/
def fsNames (fs : List (String × DataFrame)) : List String :=
  fs.map Prod.fst

/-- `df.to_csv(file_name)` on a fresh name: the file system gains one
entry. -/
def writeFile (fs : List (String × DataFrame)) (nm : String)
    (df : DataFrame) : List (String × DataFrame) :=
  fs ++ [(nm, df)]

/-- The export step of `generate_drilling_data` in src/generate_data.py:
choose the first free index and write the table there. -/
def exportTable (fs : List (String × DataFrame)) (directory stem : String)
    (df : DataFrame) : List (String × DataFrame) :=
  writeFile fs (fileName directory stem (chooseIndex (fsNames fs) directory stem)) df

/-- Reading a file back: first entry with the given name. -/
def readFile (fs : List (String × DataFrame)) (nm : String) :
    Option DataFrame :=
  (fs.find? (fun e => e.1 == nm)).map Prod.snd

/-! ### Injectivity of decimal rendering

`fileName` is injective in the index because `Nat.repr` is; we prove the
latter by a decode round-trip through a fuel-free clone of
`Nat.toDigitsCore`. -/

/-- Numeric value of a decimal digit character. -/
def digitVal (c : Char) : ℕ := c.toNat - 48

/-- Fuel-free decimal digit list (most significant first), equal to what
`Nat.toDigitsCore 10` produces with sufficient fuel. -/
def digitsM (n : ℕ) : List Char :=
  if _h : n < 10 then [Nat.digitChar n]
  else digitsM (n / 10) ++ [Nat.digitChar (n % 10)]
termination_by n
decreasing_by exact Nat.div_lt_self (by omega) (by omega)

/-- Column `i` of a DataFrame (values only). -/
def columnAt (df : DataFrame) (i : ℕ) : List ℚ :=
  (df.cols.getD i ("", [])).2

/-- Concrete realized draws used to evaluate the model at witness
inputs: mid-range initial values, zero perturbations. -/
def draws0 : Draws :=
  ⟨3, 90, 300, 10, fun _ => 0, fun _ => 0, fun _ => 0, fun _ => 0⟩

/-- A second concrete draw record (different values from `draws0`). -/
def draws1 : Draws :=
  ⟨19, 61, 201, 6, fun _ => 1/4, fun _ => -2, fun _ => 3, fun _ => 1/2⟩

theorem toDigitsCore_eq_digitsM (fuel n : ℕ) (ds : List Char)
    (h : n < fuel) : Nat.toDigitsCore 10 fuel n ds = digitsM n ++ ds := by
  induction fuel generalizing n ds with
  | zero => omega
  | succ fuel ih =>
    by_cases h10 : n / 10 = 0
    · have hn : n < 10 := by omega
      simp only [Nat.toDigitsCore, h10, if_pos]
      rw [digitsM, dif_pos hn, Nat.mod_eq_of_lt hn]
      rfl
    · have hn : ¬ n < 10 := by omega
      have hlt : n / 10 < fuel :=
        lt_of_lt_of_le (Nat.div_lt_self (by omega) (by omega)) (by omega)
      simp only [Nat.toDigitsCore, h10, if_neg, if_false]
      rw [ih (n / 10) _ hlt]
      conv_rhs => rw [digitsM]
      rw [dif_neg hn, List.append_assoc]
      rfl

theorem repr_eq_digitsM (n : ℕ) : Nat.repr n = (digitsM n).asString := by
  show (Nat.toDigits 10 n).asString = _
  rw [Nat.toDigits, toDigitsCore_eq_digitsM (n + 1) n [] (by omega),
    List.append_nil]

theorem digitVal_digitChar (d : ℕ) (h : d < 10) :
    digitVal (Nat.digitChar d) = d := by
  revert h
  revert d
  decide

theorem foldl_digitsM (n : ℕ) :
    ∀ a : ℕ, (digitsM n).foldl (fun a c => a * 10 + digitVal c) a
      = a * 10 ^ (digitsM n).length + n := by
  induction n using Nat.strong_induction_on with
  | _ n ih =>
    intro a
    by_cases h : n < 10
    · rw [digitsM, dif_pos h]
      simp [digitVal_digitChar n h]
    · rw [digitsM, dif_neg h]
      rw [List.foldl_append, ih (n / 10) (Nat.div_lt_self (by omega) (by omega))]
      simp only [List.foldl_cons, List.foldl_nil, List.length_append,
        List.length_cons, List.length_nil]
      rw [digitVal_digitChar _ (Nat.mod_lt n (by omega))]
      have hdm : 10 * (n / 10) + n % 10 = n := Nat.div_add_mod n 10
      ring_nf
      omega

theorem digitsM_injective : Function.Injective digitsM := by
  intro m n h
  have hm := foldl_digitsM m 0
  have hn := foldl_digitsM n 0
  rw [h] at hm
  omega

theorem asString_injective : Function.Injective List.asString := by
  intro l1 l2 h
  exact congrArg String.data h

theorem repr_injective : Function.Injective Nat.repr := by
  intro m n h
  rw [repr_eq_digitsM, repr_eq_digitsM] at h
  exact digitsM_injective (asString_injective h)

theorem string_eq_of_data_eq {s t : String} (h : s.data = t.data) :
    s = t := by
  cases s
  cases t
  exact congrArg String.mk h

theorem fileName_injective (directory stem : String) :
    Function.Injective (fileName directory stem) := by
  intro i j h
  apply repr_injective
  apply string_eq_of_data_eq
  have hd := congrArg String.data h
  simp only [fileName, String.data_append] at hd
  exact List.append_cancel_left (List.append_cancel_right hd)

/-! ### Existence of a free index, and the loop's contract -/

theorem exists_free_index (fs : List String) (directory stem : String) :
    ∃ i, 1 ≤ i ∧ i ≤ fs.length + 1 ∧ fileName directory stem i ∉ fs := by
  by_contra hcon
  push_neg at hcon
  have hmem : ∀ a ∈ (Finset.univ : Finset (Fin (fs.length + 1))),
      fileName directory stem (a.1 + 1) ∈ fs.toFinset := by
    intro a _
    rw [List.mem_toFinset]
    exact hcon (a.1 + 1) (by omega) (by omega)
  have hinj : Set.InjOn (fun a : Fin (fs.length + 1) =>
      fileName directory stem (a.1 + 1))
      ↑(Finset.univ : Finset (Fin (fs.length + 1))) := by
    intro a _ b _ h
    have := fileName_injective directory stem h
    exact Fin.ext (by omega)
  have hcard := Finset.card_le_card_of_injOn _ hmem hinj
  simp only [Finset.card_univ, Fintype.card_fin] at hcard
  have hle := List.toFinset_card_le fs
  omega

theorem findIndexLoop_spec (fs : List String) (directory stem : String) :
    ∀ fuel i : ℕ,
      (∃ j, i ≤ j ∧ j < i + fuel ∧ fileName directory stem j ∉ fs) →
      i ≤ findIndexLoop fs directory stem fuel i ∧
      fileName directory stem (findIndexLoop fs directory stem fuel i) ∉ fs ∧
      ∀ j, i ≤ j → j < findIndexLoop fs directory stem fuel i →
        fileName directory stem j ∈ fs := by
  intro fuel
  induction fuel with
  | zero =>
    intro i hex
    obtain ⟨j, hj1, hj2, _⟩ := hex
    omega
  | succ fuel ih =>
    intro i hex
    obtain ⟨j, hj1, hj2, hj3⟩ := hex
    by_cases hmem : fileName directory stem i ∈ fs
    · have hne : j ≠ i := by
        intro h
        exact hj3 (h ▸ hmem)
      have hrec := ih (i + 1) ⟨j, by omega, by omega, hj3⟩
      rw [findIndexLoop, if_pos hmem]
      refine ⟨by omega, hrec.2.1, ?_⟩
      intro k hk1 hk2
      rcases Nat.eq_or_lt_of_le hk1 with h | h
      · exact h ▸ hmem
      · exact hrec.2.2 k (by omega) hk2
    · rw [findIndexLoop, if_neg hmem]
      exact ⟨le_refl i, hmem, fun k hk1 hk2 => absurd hk2 (Nat.not_lt.mpr hk1)⟩

theorem chooseIndex_spec (fs : List String) (directory stem : String) :
    1 ≤ chooseIndex fs directory stem ∧
    chooseIndex fs directory stem ≤ fs.length + 1 ∧
    fileName directory stem (chooseIndex fs directory stem) ∉ fs ∧
    ∀ j, 1 ≤ j → j < chooseIndex fs directory stem →
      fileName directory stem j ∈ fs := by
  obtain ⟨j, hj1, hj2, hj3⟩ := exists_free_index fs directory stem
  have h := findIndexLoop_spec fs directory stem (fs.length + 1) 1
    ⟨j, hj1, by omega, hj3⟩
  unfold chooseIndex
  refine ⟨h.1, ?_, h.2.1, h.2.2⟩
  by_contra hgt
  push_neg at hgt
  exact hj3 (h.2.2 j hj1 (by omega))

theorem readFile_append_of_mem (fs : List (String × DataFrame))
    (x : String × DataFrame) (nm : String) (h : nm ∈ fsNames fs) :
    readFile (fs ++ [x]) nm = readFile fs nm := by
  obtain ⟨e, he, hnm⟩ := List.mem_map.mp h
  unfold readFile
  rw [List.find?_append]
  cases hf : List.find? (fun e => e.1 == nm) fs with
  | some v => rfl
  | none =>
    exfalso
    have hnone := List.find?_eq_none.mp hf e he
    rw [hnm] at hnone
    simp at hnone

/-! ### Bounds and step lemmas for the clamped random walk -/

theorem clamp_mem (x lo hi : ℚ) (h : lo ≤ hi) :
    lo ≤ clamp x lo hi ∧ clamp x lo hi ≤ hi :=
  ⟨le_min (le_max_right x lo) h, min_le_right _ hi⟩

theorem walkVal_mem (lo hi init : ℚ) (pert : ℕ → ℚ) (hlh : lo ≤ hi)
    (h0 : lo ≤ init) (h1 : init ≤ hi) (i : ℕ) :
    lo ≤ walkVal lo hi init pert i ∧ walkVal lo hi init pert i ≤ hi := by
  cases i with
  | zero => exact ⟨h0, h1⟩
  | succ i =>
    rw [walkVal]
    exact clamp_mem _ lo hi hlh

theorem abs_clamp_sub_le (p prev lo hi : ℚ) (h1 : lo ≤ prev)
    (h2 : prev ≤ hi) : |clamp (prev + p) lo hi - prev| ≤ |p| := by
  unfold clamp
  rcases le_total (prev + p) lo with h | h
  · rw [max_eq_right h, min_eq_left (h1.trans h2)]
    rw [abs_of_nonpos (by linarith : lo - prev ≤ 0),
      abs_of_nonpos (by linarith : p ≤ 0)]
    linarith
  · rw [max_eq_left h]
    rcases le_total (prev + p) hi with h' | h'
    · rw [min_eq_left h']
      have hp : prev + p - prev = p := by ring
      rw [hp]
    · rw [min_eq_right h']
      rw [abs_of_nonneg (by linarith : (0:ℚ) ≤ hi - prev),
        abs_of_nonneg (by linarith : (0:ℚ) ≤ p)]
      linarith

theorem walkVal_step (lo hi init : ℚ) (pert : ℕ → ℚ) (d : ℚ)
    (hlh : lo ≤ hi) (h0 : lo ≤ init) (h1 : init ≤ hi)
    (hp : ∀ j, |pert j| ≤ d) (i : ℕ) :
    |walkVal lo hi init pert (i + 1) - walkVal lo hi init pert i| ≤ d := by
  have hm := walkVal_mem lo hi init pert hlh h0 h1 i
  rw [walkVal]
  exact (abs_clamp_sub_le (pert (i + 1)) _ lo hi hm.1 hm.2).trans (hp (i + 1))

theorem channelSeries_length (lo hi init : ℚ) (pert : ℕ → ℚ) (n : ℕ) :
    (channelSeries lo hi init pert n).length = n := by
  unfold channelSeries
  rw [List.length_map, List.length_range]

theorem channelSeries_getD (lo hi init : ℚ) (pert : ℕ → ℚ) (n i : ℕ)
    (h : i < n) :
    (channelSeries lo hi init pert n).getD i 0 = walkVal lo hi init pert i := by
  unfold channelSeries
  rw [List.getD_eq_getElem _ _ (by rw [List.length_map, List.length_range]; exact h)]
  simp only [List.getElem_map, List.getElem_range]

theorem channelSeries_bounds (lo hi init : ℚ) (pert : ℕ → ℚ) (n : ℕ)
    (hlh : lo ≤ hi) (h0 : lo ≤ init) (h1 : init ≤ hi) :
    ∀ v ∈ channelSeries lo hi init pert n, lo ≤ v ∧ v ≤ hi := by
  intro v hv
  unfold channelSeries at hv
  obtain ⟨i, _, rfl⟩ := List.mem_map.mp hv
  exact walkVal_mem lo hi init pert hlh h0 h1 i

theorem channelSeries_step (lo hi init : ℚ) (pert : ℕ → ℚ) (d : ℚ) (n : ℕ)
    (hlh : lo ≤ hi) (h0 : lo ≤ init) (h1 : init ≤ hi)
    (hp : ∀ j, |pert j| ≤ d) :
    ∀ i, i + 1 < (channelSeries lo hi init pert n).length →
      |(channelSeries lo hi init pert n).getD (i + 1) 0 -
        (channelSeries lo hi init pert n).getD i 0| ≤ d := by
  intro i hilt
  rw [channelSeries_length] at hilt
  rw [channelSeries_getD lo hi init pert n (i + 1) hilt,
    channelSeries_getD lo hi init pert n i (by omega)]
  exact walkVal_step lo hi init pert d hlh h0 h1 hp i

theorem arange_length (start stop step : ℚ) :
    (arange start stop step).length = arangeLen start stop step := by
  unfold arange
  rw [List.length_map, List.length_range]

theorem arange_getD (start stop step : ℚ) (i : ℕ)
    (h : i < arangeLen start stop step) :
    (arange start stop step).getD i 0 = start + i * step := by
  unfold arange
  rw [List.getD_eq_getElem _ _ (by rw [List.length_map, List.length_range]; exact h)]
  simp only [List.getElem_map, List.getElem_range]

theorem mem_arange (start stop step x : ℚ)
    (hx : x ∈ arange start stop step) :
    ∃ k, k < arangeLen start stop step ∧ x = start + k * step := by
  unfold arange at hx
  obtain ⟨k, hk, rfl⟩ := List.mem_map.mp hx
  exact ⟨k, List.mem_range.mp hk, rfl⟩

theorem arange_lt_stop (start stop step : ℚ) (hstep : 0 < step) (k : ℕ)
    (hk : k < arangeLen start stop step) : start + k * step < stop := by
  unfold arangeLen at hk
  have h1 : (k : ℤ) < ⌈(stop - start) / step⌉ := by omega
  have h2 : (k : ℚ) < (stop - start) / step := by
    exact_mod_cast Int.lt_ceil.mp h1
  have h3 := (lt_div_iff₀ hstep).mp h2
  linarith

theorem numPoints_eq (sd ed st : ℚ) :
    numPoints sd ed st = arangeLen sd (ed + st) st := by
  unfold numPoints
  rw [arange_length]

theorem arangeLen_formula (sd ed st : ℚ) (hst : 0 < st) (hse : sd ≤ ed) :
    arangeLen sd (ed + st) st = (⌈(ed - sd) / st⌉).toNat + 1 := by
  unfold arangeLen
  have h1 : (ed + st - sd) / st = (ed - sd) / st + 1 := by
    field_simp
    ring
  rw [h1, Int.ceil_add_one]
  have h2 : 0 ≤ ⌈(ed - sd) / st⌉ :=
    Int.ceil_nonneg (div_nonneg (by linarith) hst.le)
  omega

theorem columnAt_zero (sd ed st m1 m2 m3 m4 : ℚ) (r : Draws) :
    columnAt (generate_drilling_data sd ed st m1 m2 m3 m4 r) 0 =
      arange sd (ed + st) st := rfl

theorem columnAt_one (sd ed st m1 m2 m3 m4 : ℚ) (r : Draws) :
    columnAt (generate_drilling_data sd ed st m1 m2 m3 m4 r) 1 =
      channelSeries 2 20 r.rop0 r.ropPert (numPoints sd ed st) := rfl

theorem columnAt_two (sd ed st m1 m2 m3 m4 : ℚ) (r : Draws) :
    columnAt (generate_drilling_data sd ed st m1 m2 m3 m4 r) 2 =
      channelSeries 60 120 r.rpm0 r.rpmPert (numPoints sd ed st) := rfl

theorem columnAt_three (sd ed st m1 m2 m3 m4 : ℚ) (r : Draws) :
    columnAt (generate_drilling_data sd ed st m1 m2 m3 m4 r) 3 =
      channelSeries 200 400 r.fr0 r.frPert (numPoints sd ed st) := rfl

theorem columnAt_four (sd ed st m1 m2 m3 m4 : ℚ) (r : Draws) :
    columnAt (generate_drilling_data sd ed st m1 m2 m3 m4 r) 4 =
      channelSeries 5 20 r.wob0 r.wobPert (numPoints sd ed st) := rfl

theorem arangeLen_concrete : arangeLen 500 (1000 + 5) 5 = 101 := by
  unfold arangeLen
  rw [show ⌈((1000:ℚ) + 5 - 500) / 5⌉ = 101 by
    rw [Int.ceil_eq_iff] <;> norm_num]
  rfl

/-! ### Claim theorems -/

/-- C1: every value of every channel generated by
`generate_drilling_data` lies within that channel's fixed bounds
(ROP 2-20, RPM 60-120, Flow Rate 200-400, Weight on Bit 5-20), for every
realized sequence of random draws and all positive per-step deltas. -/
theorem C1_channel_values_within_bounds
    (sd ed st mrop mrpm mfr mwob : ℚ) (r : Draws)
    (hd1 : 0 < mrop) (hd2 : 0 < mrpm) (hd3 : 0 < mfr) (hd4 : 0 < mwob)
    (h1 : 2 ≤ r.rop0) (h1' : r.rop0 ≤ 20)
    (h2 : 60 ≤ r.rpm0) (h2' : r.rpm0 ≤ 120)
    (h3 : 200 ≤ r.fr0) (h3' : r.fr0 ≤ 400)
    (h4 : 5 ≤ r.wob0) (h4' : r.wob0 ≤ 20)
    (hp1 : ∀ j, |r.ropPert j| ≤ mrop) (hp2 : ∀ j, |r.rpmPert j| ≤ mrpm)
    (hp3 : ∀ j, |r.frPert j| ≤ mfr) (hp4 : ∀ j, |r.wobPert j| ≤ mwob) :
    (∀ v ∈ columnAt (generate_drilling_data sd ed st mrop mrpm mfr mwob r) 1,
      2 ≤ v ∧ v ≤ 20) ∧
    (∀ v ∈ columnAt (generate_drilling_data sd ed st mrop mrpm mfr mwob r) 2,
      60 ≤ v ∧ v ≤ 120) ∧
    (∀ v ∈ columnAt (generate_drilling_data sd ed st mrop mrpm mfr mwob r) 3,
      200 ≤ v ∧ v ≤ 400) ∧
    (∀ v ∈ columnAt (generate_drilling_data sd ed st mrop mrpm mfr mwob r) 4,
      5 ≤ v ∧ v ≤ 20) := by
  simp only [columnAt_one, columnAt_two, columnAt_three, columnAt_four]
  exact ⟨channelSeries_bounds _ _ _ _ _ (by norm_num) h1 h1',
    channelSeries_bounds _ _ _ _ _ (by norm_num) h2 h2',
    channelSeries_bounds _ _ _ _ _ (by norm_num) h3 h3',
    channelSeries_bounds _ _ _ _ _ (by norm_num) h4 h4'⟩

theorem C1_witness :
    (∀ v ∈ columnAt (generate_drilling_data 500 1000 5 (1/2) 5 10 1 draws0) 1,
      2 ≤ v ∧ v ≤ 20) ∧
    (∀ v ∈ columnAt (generate_drilling_data 500 1000 5 (1/2) 5 10 1 draws0) 2,
      60 ≤ v ∧ v ≤ 120) ∧
    (∀ v ∈ columnAt (generate_drilling_data 500 1000 5 (1/2) 5 10 1 draws0) 3,
      200 ≤ v ∧ v ≤ 400) ∧
    (∀ v ∈ columnAt (generate_drilling_data 500 1000 5 (1/2) 5 10 1 draws0) 4,
      5 ≤ v ∧ v ≤ 20) :=
  C1_channel_values_within_bounds 500 1000 5 (1/2) 5 10 1 draws0
    (by norm_num) (by norm_num) (by norm_num) (by norm_num)
    (by norm_num [draws0]) (by norm_num [draws0])
    (by norm_num [draws0]) (by norm_num [draws0])
    (by norm_num [draws0]) (by norm_num [draws0])
    (by norm_num [draws0]) (by norm_num [draws0])
    (fun j => by norm_num [draws0]) (fun j => by norm_num [draws0])
    (fun j => by norm_num [draws0]) (fun j => by norm_num [draws0])

/-- C2: in every channel series produced by `generate_drilling_data`,
consecutive values differ (after clamping) by at most that channel's
maxStepDelta, whenever the perturbations are drawn from
`[-maxStepDelta, maxStepDelta]` and the initial value lies within the
channel's bounds. -/
theorem C2_consecutive_step_bounded
    (sd ed st mrop mrpm mfr mwob : ℚ) (r : Draws)
    (h1 : 2 ≤ r.rop0) (h1' : r.rop0 ≤ 20)
    (h2 : 60 ≤ r.rpm0) (h2' : r.rpm0 ≤ 120)
    (h3 : 200 ≤ r.fr0) (h3' : r.fr0 ≤ 400)
    (h4 : 5 ≤ r.wob0) (h4' : r.wob0 ≤ 20)
    (hp1 : ∀ j, |r.ropPert j| ≤ mrop) (hp2 : ∀ j, |r.rpmPert j| ≤ mrpm)
    (hp3 : ∀ j, |r.frPert j| ≤ mfr) (hp4 : ∀ j, |r.wobPert j| ≤ mwob) :
    (∀ i, i + 1 < (columnAt (generate_drilling_data sd ed st mrop mrpm mfr mwob r) 1).length →
      |(columnAt (generate_drilling_data sd ed st mrop mrpm mfr mwob r) 1).getD (i + 1) 0 -
        (columnAt (generate_drilling_data sd ed st mrop mrpm mfr mwob r) 1).getD i 0| ≤ mrop) ∧
    (∀ i, i + 1 < (columnAt (generate_drilling_data sd ed st mrop mrpm mfr mwob r) 2).length →
      |(columnAt (generate_drilling_data sd ed st mrop mrpm mfr mwob r) 2).getD (i + 1) 0 -
        (columnAt (generate_drilling_data sd ed st mrop mrpm mfr mwob r) 2).getD i 0| ≤ mrpm) ∧
    (∀ i, i + 1 < (columnAt (generate_drilling_data sd ed st mrop mrpm mfr mwob r) 3).length →
      |(columnAt (generate_drilling_data sd ed st mrop mrpm mfr mwob r) 3).getD (i + 1) 0 -
        (columnAt (generate_drilling_data sd ed st mrop mrpm mfr mwob r) 3).getD i 0| ≤ mfr) ∧
    (∀ i, i + 1 < (columnAt (generate_drilling_data sd ed st mrop mrpm mfr mwob r) 4).length →
      |(columnAt (generate_drilling_data sd ed st mrop mrpm mfr mwob r) 4).getD (i + 1) 0 -
        (columnAt (generate_drilling_data sd ed st mrop mrpm mfr mwob r) 4).getD i 0| ≤ mwob) := by
  simp only [columnAt_one, columnAt_two, columnAt_three, columnAt_four]
  exact ⟨channelSeries_step _ _ _ _ _ _ (by norm_num) h1 h1' hp1,
    channelSeries_step _ _ _ _ _ _ (by norm_num) h2 h2' hp2,
    channelSeries_step _ _ _ _ _ _ (by norm_num) h3 h3' hp3,
    channelSeries_step _ _ _ _ _ _ (by norm_num) h4 h4' hp4⟩

theorem C2_witness :
    (∀ i, i + 1 < (columnAt (generate_drilling_data 500 1000 5 (1/2) 5 10 1 draws1) 1).length →
      |(columnAt (generate_drilling_data 500 1000 5 (1/2) 5 10 1 draws1) 1).getD (i + 1) 0 -
        (columnAt (generate_drilling_data 500 1000 5 (1/2) 5 10 1 draws1) 1).getD i 0| ≤ 1/2) ∧
    (∀ i, i + 1 < (columnAt (generate_drilling_data 500 1000 5 (1/2) 5 10 1 draws1) 2).length →
      |(columnAt (generate_drilling_data 500 1000 5 (1/2) 5 10 1 draws1) 2).getD (i + 1) 0 -
        (columnAt (generate_drilling_data 500 1000 5 (1/2) 5 10 1 draws1) 2).getD i 0| ≤ 5) ∧
    (∀ i, i + 1 < (columnAt (generate_drilling_data 500 1000 5 (1/2) 5 10 1 draws1) 3).length →
      |(columnAt (generate_drilling_data 500 1000 5 (1/2) 5 10 1 draws1) 3).getD (i + 1) 0 -
        (columnAt (generate_drilling_data 500 1000 5 (1/2) 5 10 1 draws1) 3).getD i 0| ≤ 10) ∧
    (∀ i, i + 1 < (columnAt (generate_drilling_data 500 1000 5 (1/2) 5 10 1 draws1) 4).length →
      |(columnAt (generate_drilling_data 500 1000 5 (1/2) 5 10 1 draws1) 4).getD (i + 1) 0 -
        (columnAt (generate_drilling_data 500 1000 5 (1/2) 5 10 1 draws1) 4).getD i 0| ≤ 1) :=
  C2_consecutive_step_bounded 500 1000 5 (1/2) 5 10 1 draws1
    (by norm_num [draws1]) (by norm_num [draws1])
    (by norm_num [draws1]) (by norm_num [draws1])
    (by norm_num [draws1]) (by norm_num [draws1])
    (by norm_num [draws1]) (by norm_num [draws1])
    (fun j => by norm_num [draws1, abs_le]) (fun j => by norm_num [draws1, abs_le])
    (fun j => by norm_num [draws1, abs_le]) (fun j => by norm_num [draws1, abs_le])

theorem arangeLen_cex_eval : arangeLen 0 (10 + 3) 3 = 5 := by
  unfold arangeLen
  rw [show ⌈((10:ℚ) + 3 - 0) / 3⌉ = 5 by rw [Int.ceil_eq_iff] <;> norm_num]
  rfl

/-- C3 (counterexample): at startDepth 0, endDepth 10, step 3 the depth
column of `generate_drilling_data` contains 12 > endDepth, refuting the
claim that every depth value is ≤ endDepth. -/
theorem C3_counterexample :
    ¬ (∀ x ∈ columnAt (generate_drilling_data 0 10 3 1 1 1 1 draws0) 0,
        x ≤ (10:ℚ)) := by
  intro h
  have hmem : (columnAt (generate_drilling_data 0 10 3 1 1 1 1 draws0) 0).getD 4 0 ∈
      columnAt (generate_drilling_data 0 10 3 1 1 1 1 draws0) 0 := by
    rw [columnAt_zero,
      List.getD_eq_getElem _ _ (by rw [arange_length, arangeLen_cex_eval]; omega)]
    exact List.getElem_mem _
  have hval : (columnAt (generate_drilling_data 0 10 3 1 1 1 1 draws0) 0).getD 4 0 = 12 := by
    rw [columnAt_zero, arange_getD 0 (10 + 3) 3 4 (by rw [arangeLen_cex_eval]; omega)]
    norm_num
  have h12 := h _ hmem
  rw [hval] at h12
  norm_num at h12

/-- C3 (amended): every depth value produced by `generate_drilling_data`
equals startDepth + k·step for some k ≥ 0 and is strictly less than
endDepth + step; a value may exceed endDepth when step does not divide
endDepth - startDepth. -/
theorem C3_depth_values_amended (sd ed st m1 m2 m3 m4 : ℚ) (r : Draws)
    (hst : 0 < st) (hse : sd ≤ ed) :
    ∀ x ∈ columnAt (generate_drilling_data sd ed st m1 m2 m3 m4 r) 0,
      (∃ k : ℕ, x = sd + k * st) ∧ x < ed + st := by
  intro x hx
  rw [columnAt_zero] at hx
  obtain ⟨k, hk, rfl⟩ := mem_arange sd (ed + st) st x hx
  exact ⟨⟨k, rfl⟩, arange_lt_stop sd (ed + st) st hst k hk⟩

theorem C3_witness :
    (∃ k : ℕ, (columnAt (generate_drilling_data 500 1000 5 1 1 1 1 draws0) 0).getD 0 0
      = 500 + k * 5) ∧
    (columnAt (generate_drilling_data 500 1000 5 1 1 1 1 draws0) 0).getD 0 0 < 1000 + 5 :=
  C3_depth_values_amended 500 1000 5 1 1 1 1 draws0 (by norm_num) (by norm_num) _
    (by rw [columnAt_zero,
          List.getD_eq_getElem _ _ (by rw [arange_length, arangeLen_concrete]; omega)]
        exact List.getElem_mem _)

/-- C4 (counterexample): at startDepth 0, endDepth 10, step 3 the number
of depth points is 5, not floor((10-0)/3) + 1 = 4, refuting the claimed
length formula. -/
theorem C4_counterexample :
    numPoints 0 10 3 ≠ (⌊((10:ℚ) - 0) / 3⌋).toNat + 1 := by
  rw [numPoints_eq, arangeLen_cex_eval,
    show ⌊((10:ℚ) - 0) / 3⌋ = 3 by rw [Int.floor_eq_iff] <;> norm_num]
  decide

/-- C4 (amended): the depth column of `generate_drilling_data` is strictly
increasing with constant difference step between consecutive elements and
has length ⌈(endDepth - startDepth) / step⌉ + 1 (which equals the claimed
floor((endDepth - startDepth)/step) + 1 exactly when step divides
endDepth - startDepth); the concrete case 500..1000 step 5 gives 101
points, first 500, last 1000. -/
theorem C4_depth_axis_amended (sd ed st m1 m2 m3 m4 : ℚ) (r : Draws)
    (hst : 0 < st) (hse : sd ≤ ed) :
    (∀ i, i + 1 < (columnAt (generate_drilling_data sd ed st m1 m2 m3 m4 r) 0).length →
      (columnAt (generate_drilling_data sd ed st m1 m2 m3 m4 r) 0).getD (i + 1) 0 -
        (columnAt (generate_drilling_data sd ed st m1 m2 m3 m4 r) 0).getD i 0 = st) ∧
    (∀ i j, i < j → j < (columnAt (generate_drilling_data sd ed st m1 m2 m3 m4 r) 0).length →
      (columnAt (generate_drilling_data sd ed st m1 m2 m3 m4 r) 0).getD i 0 <
        (columnAt (generate_drilling_data sd ed st m1 m2 m3 m4 r) 0).getD j 0) ∧
    (columnAt (generate_drilling_data sd ed st m1 m2 m3 m4 r) 0).length =
      (⌈(ed - sd) / st⌉).toNat + 1 := by
  simp only [columnAt_zero, arange_length]
  refine ⟨?_, ?_, arangeLen_formula sd ed st hst hse⟩
  · intro i hi
    rw [arange_getD _ _ _ _ hi, arange_getD _ _ _ _ (by omega)]
    push_cast
    ring
  · intro i j hij hj
    rw [arange_getD _ _ _ _ (by omega), arange_getD _ _ _ _ hj]
    have hc : (i:ℚ) < (j:ℚ) := by exact_mod_cast hij
    have := mul_lt_mul_of_pos_right hc hst
    linarith

theorem C4_witness :
    ((∀ i, i + 1 < (columnAt (generate_drilling_data 500 1000 5 1 1 1 1 draws0) 0).length →
      (columnAt (generate_drilling_data 500 1000 5 1 1 1 1 draws0) 0).getD (i + 1) 0 -
        (columnAt (generate_drilling_data 500 1000 5 1 1 1 1 draws0) 0).getD i 0 = 5) ∧
    (∀ i j, i < j → j < (columnAt (generate_drilling_data 500 1000 5 1 1 1 1 draws0) 0).length →
      (columnAt (generate_drilling_data 500 1000 5 1 1 1 1 draws0) 0).getD i 0 <
        (columnAt (generate_drilling_data 500 1000 5 1 1 1 1 draws0) 0).getD j 0) ∧
    (columnAt (generate_drilling_data 500 1000 5 1 1 1 1 draws0) 0).length =
      (⌈((1000:ℚ) - 500) / 5⌉).toNat + 1) ∧
    (columnAt (generate_drilling_data 500 1000 5 1 1 1 1 draws0) 0).length = 101 ∧
    (columnAt (generate_drilling_data 500 1000 5 1 1 1 1 draws0) 0).getD 0 0 = 500 ∧
    (columnAt (generate_drilling_data 500 1000 5 1 1 1 1 draws0) 0).getD 100 0 = 1000 :=
  ⟨C4_depth_axis_amended 500 1000 5 1 1 1 1 draws0 (by norm_num) (by norm_num),
   by rw [columnAt_zero, arange_length, arangeLen_concrete],
   by rw [columnAt_zero,
        arange_getD 500 (1000 + 5) 5 0 (by rw [arangeLen_concrete]; omega)]
      norm_num,
   by rw [columnAt_zero,
        arange_getD 500 (1000 + 5) 5 100 (by rw [arangeLen_concrete]; omega)]
      norm_num⟩

/-- C5: the code performs no InvalidRange validation: at startDepth 10,
endDepth 8, step 5 (endDepth < startDepth) `generate_drilling_data`
produces a one-row table whose single depth value is 10, instead of
rejecting the input before generation. -/
theorem C5_no_invalid_range_rejection :
    (8:ℚ) < 10 ∧
    (columnAt (generate_drilling_data 10 8 5 1 1 1 1 draws0) 0).length = 1 ∧
    (columnAt (generate_drilling_data 10 8 5 1 1 1 1 draws0) 0).getD 0 0 = 10 := by
  have hlen : arangeLen 10 (8 + 5) 5 = 1 := by
    unfold arangeLen
    rw [show ⌈((8:ℚ) + 5 - 10) / 5⌉ = 1 by rw [Int.ceil_eq_iff] <;> norm_num]
    rfl
  refine ⟨by norm_num, ?_, ?_⟩
  · rw [columnAt_zero, arange_length, hlen]
  · rw [columnAt_zero, arange_getD 10 (8 + 5) 5 0 (by rw [hlen]; omega)]
    norm_num

/-- C6: the export step writes to `{directory}/{stem}_{index}.csv` where
index is the smallest integer ≥ 1 whose candidate name is not already
present, never writing to an existing path; with exactly test_data_1.csv
and test_data_2.csv present, the chosen index is 3 and existing entries
are left unchanged. -/
theorem C6_export_smallest_free_index (fs : List (String × DataFrame))
    (directory stem : String) (df : DataFrame) :
    (1 ≤ chooseIndex (fsNames fs) directory stem ∧
      fileName directory stem (chooseIndex (fsNames fs) directory stem) ∉ fsNames fs ∧
      (∀ j, 1 ≤ j → j < chooseIndex (fsNames fs) directory stem →
        fileName directory stem j ∈ fsNames fs) ∧
      exportTable fs directory stem df =
        fs ++ [(fileName directory stem (chooseIndex (fsNames fs) directory stem), df)] ∧
      ∀ nm ∈ fsNames fs,
        readFile (exportTable fs directory stem df) nm = readFile fs nm) ∧
    chooseIndex ["data/test_data_1.csv", "data/test_data_2.csv"] "data" "test_data" = 3 ∧
    fileName "data" "test_data" 3 = "data/test_data_3.csv" := by
  have h := chooseIndex_spec (fsNames fs) directory stem
  refine ⟨⟨h.1, h.2.2.1, h.2.2.2, rfl, ?_⟩, by decide, by decide⟩
  intro nm hnm
  exact readFile_append_of_mem fs _ nm hnm

/-- C7: growing the file set with the previously chosen name (and possibly
more files, removing none) makes the next chosen index strictly larger;
repeated sequential exports therefore select strictly increasing
indices. -/
theorem C7_indices_strictly_increase (fs fs' : List String)
    (directory stem : String)
    (hsub : ∀ x ∈ fs, x ∈ fs')
    (hnew : fileName directory stem (chooseIndex fs directory stem) ∈ fs') :
    chooseIndex fs directory stem < chooseIndex fs' directory stem := by
  by_contra hle
  push_neg at hle
  have h1 := chooseIndex_spec fs directory stem
  have h2 := chooseIndex_spec fs' directory stem
  rcases Nat.eq_or_lt_of_le hle with heq | hlt
  · exact h2.2.2.1 (heq.symm ▸ hnew)
  · exact h2.2.2.1 (hsub _ (h1.2.2.2 _ h2.1 hlt))

theorem C7_witness :
    chooseIndex [] "data" "test_data" <
      chooseIndex ["data/test_data_1.csv"] "data" "test_data" :=
  C7_indices_strictly_increase [] ["data/test_data_1.csv"] "data" "test_data"
    (by intro x hx; cases hx) (by decide)

/-- C8: every table produced by `generate_drilling_data` has exactly the
five columns Depth (m), ROP (m/h), RPM, Flow Rate (L/min),
Weight on Bit (tons) in that order, and all five columns have the
depth-axis length. -/
theorem C8_table_schema (sd ed st m1 m2 m3 m4 : ℚ) (r : Draws)
    (hst : 0 < st) (hse : sd ≤ ed) :
    (generate_drilling_data sd ed st m1 m2 m3 m4 r).cols.map Prod.fst =
      ["Depth (m)", "ROP (m/h)", "RPM", "Flow Rate (L/min)",
        "Weight on Bit (tons)"] ∧
    ∀ c ∈ (generate_drilling_data sd ed st m1 m2 m3 m4 r).cols,
      c.2.length = numPoints sd ed st := by
  refine ⟨rfl, ?_⟩
  intro c hc
  simp only [generate_drilling_data, List.mem_cons, List.not_mem_nil,
    or_false] at hc
  rcases hc with rfl | rfl | rfl | rfl | rfl <;>
    simp [channelSeries_length, numPoints]

theorem C8_witness :
    (generate_drilling_data 500 1000 5 (1/2) 5 10 1 draws0).cols.map Prod.fst =
      ["Depth (m)", "ROP (m/h)", "RPM", "Flow Rate (L/min)",
        "Weight on Bit (tons)"] ∧
    ∀ c ∈ (generate_drilling_data 500 1000 5 (1/2) 5 10 1 draws0).cols,
      c.2.length = numPoints 500 1000 5 :=
  C8_table_schema 500 1000 5 (1/2) 5 10 1 draws0 (by norm_num) (by norm_num)

/-- C9: two runs with identical startDepth, endDepth, step and per-channel
deltas but arbitrary different draws yield tables of identical shape: the
same column names in the same order and the same column lengths. -/
theorem C9_shape_independent_of_draws (sd ed st m1 m2 m3 m4 : ℚ)
    (r1 r2 : Draws) (hst : 0 < st) (hse : sd ≤ ed) :
    (generate_drilling_data sd ed st m1 m2 m3 m4 r1).cols.map Prod.fst =
      (generate_drilling_data sd ed st m1 m2 m3 m4 r2).cols.map Prod.fst ∧
    (generate_drilling_data sd ed st m1 m2 m3 m4 r1).cols.map
        (fun c => c.2.length) =
      (generate_drilling_data sd ed st m1 m2 m3 m4 r2).cols.map
        (fun c => c.2.length) := by
  constructor
  · rfl
  · simp [generate_drilling_data, channelSeries_length]

theorem C9_witness :
    (generate_drilling_data 500 1000 5 (1/2) 5 10 1 draws0).cols.map Prod.fst =
      (generate_drilling_data 500 1000 5 (1/2) 5 10 1 draws1).cols.map Prod.fst ∧
    (generate_drilling_data 500 1000 5 (1/2) 5 10 1 draws0).cols.map
        (fun c => c.2.length) =
      (generate_drilling_data 500 1000 5 (1/2) 5 10 1 draws1).cols.map
        (fun c => c.2.length) :=
  C9_shape_independent_of_draws 500 1000 5 (1/2) 5 10 1 draws0 draws1
    (by norm_num) (by norm_num)

/-- C10: for any finite set of pre-existing files there is a free index
i ≥ 1; the collision search terminates within fs.length + 1 probes and
returns the smallest free index. -/
theorem C10_collision_search_terminates (fs : List String)
    (directory stem : String) :
    (∃ i, 1 ≤ i ∧ fileName directory stem i ∉ fs) ∧
    chooseIndex fs directory stem ≤ fs.length + 1 ∧
    1 ≤ chooseIndex fs directory stem ∧
    fileName directory stem (chooseIndex fs directory stem) ∉ fs ∧
    ∀ j, 1 ≤ j → fileName directory stem j ∉ fs →
      chooseIndex fs directory stem ≤ j := by
  have h := chooseIndex_spec fs directory stem
  obtain ⟨i, hi1, _, hi3⟩ := exists_free_index fs directory stem
  refine ⟨⟨i, hi1, hi3⟩, h.2.1, h.1, h.2.2.1, ?_⟩
  intro j hj1 hj2
  by_contra hlt
  push_neg at hlt
  exact hj2 (h.2.2.2 j hj1 hlt)

end DrillingSpec
